import Mathlib

/-!
Verification of the auuction proxy-bidding and signup core.

Shallow embedding of `src/backend/auctions/views.py` (the uniform-price
proxy engine `compute_current_state`, the bid intake `place_bid`, and the
fixed-price signup manager) and `src/backend/auctions/utils.py`
(`standard_increment`).  Monetary amounts are integers in cents
(`Decimal("1.00")` becomes `100`); timestamps are natural numbers.
-/

namespace Auuction

/-- Subset of the `Item` model relevant to bidding
(`src/backend/auctions/models.py`): `quantity_total` (K), nullable
`opening_min_bid` and `bid_increment`, in cents. -/
structure PBItem where
  quantity_total : Nat
  opening_min_bid : Option Int
  bid_increment : Option Int
deriving Repr, DecidableEq

/-- A stored proxy bid row: bidder id, maximum amount (cents), requested
seats, and the `updated_at` timestamp used for tie-breaking. -/
structure ProxyBid where
  bidder : Nat
  max_amount : Int
  seats : Nat
  updated_at : Nat
deriving Repr, DecidableEq

/-- One expanded unit-demand slot: `(max_amount, updated_at, bidder_id)`
as built inside `compute_current_state`. -/
structure SeatUnit where
  amount : Int
  time : Nat
  bidder : Nat
deriving Repr, DecidableEq

/-- `standard_increment` from `src/backend/auctions/utils.py`, on cents:
tiered minimum bid step with inclusive lower bounds. -/
def standard_increment (current : Int) : Int :=
  if current < 2500 then 100
  else if current < 10000 then 500
  else if current < 25000 then 1000
  else if current < 50000 then 2500
  else if current < 100000 then 5000
  else 10000

/-- The per-item increment helper `get_increment` in `place_bid`:
the item's `bid_increment` override when set, else the standard tier. -/
def get_increment (item : PBItem) (base : Int) : Int :=
  match item.bid_increment with
  | some inc => inc
  | none => standard_increment base

/-- Expansion step of `compute_current_state`: each proxy contributes
`max(1, seats)` identical units. -/
def expandUnits (proxies : List ProxyBid) : List SeatUnit :=
  proxies.flatMap (fun p =>
    List.replicate (max 1 p.seats) ⟨p.max_amount, p.updated_at, p.bidder⟩)

/-- The sort key `(-max_amount, updated_at)` of `compute_current_state`,
as a total preorder: `u` precedes `v` iff `u` has the larger amount, or
equal amounts and `u` is not later. -/
def unitRel (u v : SeatUnit) : Prop :=
  v.amount < u.amount ∨ (u.amount = v.amount ∧ u.time ≤ v.time)

instance : DecidableRel unitRel := fun u v => by
  unfold unitRel; exact inferInstance

instance : IsTotal SeatUnit unitRel :=
  ⟨fun u v => by
    unfold unitRel
    rcases lt_trichotomy u.amount v.amount with h | h | h
    · exact Or.inr (Or.inl h)
    · rcases Nat.le_total u.time v.time with ht | ht
      · exact Or.inl (Or.inr ⟨h, ht⟩)
      · exact Or.inr (Or.inr ⟨h.symm, ht⟩)
    · exact Or.inl (Or.inl h)⟩

instance : IsTrans SeatUnit unitRel :=
  ⟨fun a b c hab hbc => by
    unfold unitRel at *
    rcases hab with h1 | ⟨h1, t1⟩ <;> rcases hbc with h2 | ⟨h2, t2⟩
    · exact Or.inl (h2.trans h1)
    · exact Or.inl (h2 ▸ h1)
    · exact Or.inl (h1 ▸ h2)
    · exact Or.inr ⟨h1.trans h2, t1.trans t2⟩⟩

/-- `units.sort(key=lambda t: (t[0] * -1, t[1]))`: Python's stable sort
on the lexicographic key, realized as a stable structural sort over the
same total preorder. -/
def sortUnits (l : List SeatUnit) : List SeatUnit :=
  List.insertionSort unitRel l

/-- `winners_map[bidder] = winners_map.get(bidder, 0) + 1` on an
insertion-ordered association list, mirroring the Python dict. -/
def addWinner (m : List (Nat × Nat)) (b : Nat) : List (Nat × Nat) :=
  match m with
  | [] => [(b, 1)]
  | (x, n) :: rest =>
      if x = b then (x, n + 1) :: rest else (x, n) :: addWinner rest b

/-- Aggregate seats per bidder over a list of winning units. -/
def winnersMap (units : List SeatUnit) : List (Nat × Nat) :=
  units.foldl (fun m u => addWinner m u.bidder) []

/-- `winners_map.get(bidder, 0)`. -/
def seatsWon (m : List (Nat × Nat)) (b : Nat) : Nat :=
  match m.find? (fun x => x.1 = b) with
  | some x => x.2
  | none => 0

/-- The tuple returned by `compute_current_state`:
`(top_bidder, public_price, is_full, winners_map)`. -/
structure EngineState where
  leader : Option Nat
  price : Int
  is_full : Bool
  winners : List (Nat × Nat)
deriving Repr, DecidableEq

/-- `compute_current_state` from `place_bid` in
`src/backend/auctions/views.py` (lines 138-185), transcribed from the
source: expand proxies into units, sort by `(-max_amount, updated_at)`,
then branch on whether demand exceeds `K = max(1, quantity_total)`. -/
def compute_current_state (item : PBItem) (proxies : List ProxyBid) : EngineState :=
  let opening : Int := item.opening_min_bid.getD 100
  let K : Nat := max 1 item.quantity_total
  let units := sortUnits (expandUnits proxies)
  match units with
  | [] => ⟨none, opening, false, []⟩
  | top :: _ =>
    if units.length ≤ K then
      ⟨some top.bidder, opening, false, winnersMap units⟩
    else
      let kth_max : Int := ((units.get? (K - 1)).map SeatUnit.amount).getD 0
      let next_max : Int := ((units.get? K).map SeatUnit.amount).getD 0
      let inc := get_increment item next_max
      let price0 := min kth_max (next_max + inc)
      let price := max price0 opening
      ⟨some top.bidder, price, true, winnersMap (units.take K)⟩

/-- Spec-side engine (§4.2 of the spec, written from the spec's words, for
the refinement claim): expand every proxy into `seats` unit slots, sort by
descending max then ascending time, and return the prescribed tuple; when
demand exceeds `K` the price is
`max(opening, min(kth_amount, next_amount + minimum_increment(next_amount)))`
where the increment policy is the item's override or the standard tiers. -/
def specEngineOutcome (item : PBItem) (proxies : List ProxyBid) : EngineState :=
  let K : Nat := max 1 item.quantity_total
  let opening : Int := item.opening_min_bid.getD 100
  let units := sortUnits (proxies.flatMap (fun p =>
    List.replicate p.seats ⟨p.max_amount, p.updated_at, p.bidder⟩))
  match units.head? with
  | none => ⟨none, opening, false, []⟩
  | some top =>
    if K < units.length then
      let kthAmount : Int := ((units.get? (K - 1)).map SeatUnit.amount).getD 0
      let nextAmount : Int := ((units.get? K).map SeatUnit.amount).getD 0
      ⟨some top.bidder,
        max opening (min kthAmount (nextAmount + get_increment item nextAmount)),
        true, winnersMap (units.take K)⟩
    else
      ⟨some top.bidder, opening, false, winnersMap units⟩

/-! ## Bid intake (`place_bid`, views.py lines 187-240) -/

/-- An audit `Bid` row: `(bidder, amount, created_at)`. -/
structure BidRow where
  bidder : Nat
  amount : Int
  created_at : Nat
deriving Repr, DecidableEq

/-- `ProxyBid.objects.get(item, bidder)`: the bidder's stored proxy row. -/
def findUser : List ProxyBid → Nat → Option ProxyBid
  | [], _ => none
  | p :: ps, user => if p.bidder = user then some p else findUser ps user

/-- The in-place update half of the upsert: raise `max_amount` only when
the submission is strictly greater, set `seats` unconditionally, and
refresh `updated_at` only when something changed (the row is saved only
then). -/
def upsertRecord (pb : ProxyBid) (amount : Int) (s t : Nat) : ProxyBid :=
  ⟨pb.bidder,
   if pb.max_amount < amount then amount else pb.max_amount,
   s,
   if pb.max_amount < amount ∨ pb.seats ≠ s then t else pb.updated_at⟩

/-- `ProxyBid.objects.get_or_create(...)` followed by the conditional
update in `place_bid`: create with the given amount/seats, or update the
existing row via `upsertRecord`. -/
def dbUpsert (db : List ProxyBid) (user : Nat) (amount : Int) (s t : Nat) :
    List ProxyBid :=
  match findUser db user with
  | some _ => db.map (fun p => if p.bidder = user then upsertRecord p amount s t else p)
  | none => db ++ [⟨user, amount, s, t⟩]

/-- `locked_item.bids.order_by("-amount", "-created_at").first()`. -/
def topBid (bids : List BidRow) : Option BidRow :=
  bids.foldl (fun acc b =>
    match acc with
    | none => some b
    | some a =>
        if a.amount < b.amount ∨ (a.amount = b.amount ∧ a.created_at < b.created_at)
        then some b else some a) none

/-- Outcome of the `place_bid` transaction body. -/
inductive BidOutcome where
  | rejectedBelowOpening (opening : Int)
  | rejectedNeedMin (minNext : Int)
  | accepted (prevWon newWon : Nat)
deriving Repr, DecidableEq

/-- Whether the outcome is one of the two validation rejections. -/
def BidOutcome.isRejection : BidOutcome → Bool
  | .accepted _ _ => false
  | _ => true

/-- The transaction body of `place_bid` (views.py lines 188-240) as a pure
state transformer on `(proxy rows, audit rows)`: snapshot `prev`, upsert
the bidder's proxy, recompute `next`, validate (returning early commits
the upsert, since the `return redirect` leaves the atomic block without
an exception), then conditionally append one audit row. -/
def place_bid (item : PBItem) (db : List ProxyBid) (bids : List BidRow)
    (user : Nat) (max_amount : Int) (reqSeats0 now : Nat) :
    BidOutcome × List ProxyBid × List BidRow :=
  let Ktot : Nat := max 1 item.quantity_total
  let reqSeats : Nat := max 1 (min reqSeats0 Ktot)
  let prevTop := topBid bids
  let prev := compute_current_state item db
  let created : Bool := (findUser db user).isNone
  let db2 := dbUpsert db user max_amount reqSeats now
  let pbMax : Int := ((findUser db2 user).map ProxyBid.max_amount).getD max_amount
  let next := compute_current_state item db2
  let opening : Int := item.opening_min_bid.getD 100
  let shouldWrite : Bool :=
    match prevTop with
    | none => true
    | some t => decide (t.amount ≠ next.price) || decide (prev.leader ≠ next.leader)
  let bids2 :=
    match next.leader with
    | some L => if shouldWrite then bids ++ [⟨L, next.price, now⟩] else bids
    | none => bids
  let acceptedRes :=
    (BidOutcome.accepted (seatsWon prev.winners user) (seatsWon next.winners user),
     db2, bids2)
  if prev.is_full = false then
    if max_amount < opening then (.rejectedBelowOpening opening, db2, bids)
    else acceptedRes
  else
    if seatsWon next.winners user = 0 ∧
        max_amount < prev.price + get_increment item prev.price ∧
        created = false ∧ max_amount ≤ pbMax then
      (.rejectedNeedMin (prev.price + get_increment item prev.price), db2, bids)
    else acceptedRes

/-! ## The `auctions.models` namespace (claim about the missing `ProxyBid`) -/

/-- The model classes defined at top level in
`src/backend/auctions/models.py`. -/
def modelsModuleNames : List String :=
  ["Auction", "Category", "Item", "Bid", "Signup", "Profile"]

/-- Outcome of the `place_bid` view around its transaction: the blanket
`except Exception` handler converts any raised exception into the generic
"Unable to place bid right now" outcome. -/
inductive ViewOutcome where
  | genericFailure
  | ok (o : BidOutcome)
deriving Repr, DecidableEq

/-- The `place_bid` view's atomic block: the body first evaluates
`from .models import ProxyBid`; if the name does not resolve in the
models module the import raises, the handler reports the generic failure
and the transaction rolls back, leaving both tables untouched. -/
def place_bid_request (item : PBItem) (db : List ProxyBid) (bids : List BidRow)
    (user : Nat) (max_amount : Int) (reqSeats0 now : Nat) :
    ViewOutcome × List ProxyBid × List BidRow :=
  if modelsModuleNames.contains "ProxyBid" then
    let r := place_bid item db bids user max_amount reqSeats0 now
    (.ok r.1, r.2.1, r.2.2)
  else
    (.genericFailure, db, bids)

/-! ## Signup capacity manager (views.py: `fixed_price_signup` lines
849-871, `fixed_price_cancel` lines 944-994, `fixed_price_adjust`
lines 296-420) -/

/-- A `Signup` row: `(user, quantity, waitlisted, created_at)`. -/
structure SignupRec where
  user : Nat
  quantity : Nat
  waitlisted : Bool
  created_at : Nat
deriving Repr, DecidableEq

/-- `Signup.objects.filter(item, waitlisted=False).aggregate(Sum("quantity"))`. -/
def confirmedSum (l : List SignupRec) : Nat :=
  ((l.filter (fun s => !s.waitlisted)).map SignupRec.quantity).sum

/-- `Signup.objects.filter(item=item, user=user).first()`. -/
def findSignup : List SignupRec → Nat → Option SignupRec
  | [], _ => none
  | s :: ss, user => if s.user = user then some s else findSignup ss user

/-- Outcome of a signup request on a published fixed-price item. -/
inductive SignupOutcome where
  | alreadySignedUp
  | confirmed
  | waitlisted
deriving Repr, DecidableEq

/-- The transaction body of `fixed_price_signup`: an existing signup is
returned untouched; otherwise the requested quantity (floored at 1) is
admitted in full when it fits the remaining capacity, else the whole
request is waitlisted, leaving `quantity_sold` unchanged. -/
def fixed_price_signup (capacity : Nat) (signups : List SignupRec) (sold : Nat)
    (user qty0 now : Nat) : SignupOutcome × List SignupRec × Nat :=
  match findSignup signups user with
  | some _ => (.alreadySignedUp, signups, sold)
  | none =>
    let qty := max 1 qty0
    let confirmed := confirmedSum signups
    let remaining := capacity - confirmed
    if qty ≤ remaining then
      (.confirmed, signups ++ [⟨user, qty, false, now⟩], confirmed + qty)
    else
      (.waitlisted, signups ++ [⟨user, qty, true, now⟩], sold)

/-- The `created_at` FIFO order on signups. -/
def createdRel (a b : SignupRec) : Prop :=
  a.created_at ≤ b.created_at

instance : DecidableRel createdRel := fun a b => by
  unfold createdRel; exact inferInstance

/-- `Signup.objects.filter(waitlisted=True).order_by("created_at")`. -/
def sortByCreated (l : List SignupRec) : List SignupRec :=
  List.insertionSort createdRel l

/-- The FIFO promotion loop shared by `fixed_price_cancel` and the
decrease branch of `fixed_price_adjust`, transcribed from the source:
promote a fitting signup whole, deduct its quantity, and `break` as soon
as the remaining capacity check at the bottom of the loop reaches zero.
Returns the updated waitlist rows and the final remaining capacity. -/
def promoteLoop : Nat → List SignupRec → List SignupRec × Nat
  | remaining, [] => ([], remaining)
  | remaining, w :: ws =>
    if w.quantity ≤ remaining then
      let w2 : SignupRec := ⟨w.user, w.quantity, false, w.created_at⟩
      let r2 := remaining - w.quantity
      if r2 = 0 then (w2 :: ws, 0)
      else
        let rest := promoteLoop r2 ws
        (w2 :: rest.1, rest.2)
    else
      if remaining = 0 then (w :: ws, remaining)
      else
        let rest := promoteLoop remaining ws
        (w :: rest.1, rest.2)

/-- FIFO promotion as the spec words it: scan in order, stop when the
remaining capacity reaches 0, promote whole whatever fits, skip whatever
does not without blocking later entries. -/
def promoteSpec : Nat → List SignupRec → List SignupRec × Nat
  | r, [] => ([], r)
  | r, w :: ws =>
    if r = 0 then (w :: ws, 0)
    else if w.quantity ≤ r then
      let rest := promoteSpec (r - w.quantity) ws
      ((⟨w.user, w.quantity, false, w.created_at⟩ : SignupRec) :: rest.1, rest.2)
    else
      let rest := promoteSpec r ws
      (w :: rest.1, rest.2)

/-- The transaction body of `fixed_price_cancel`: delete the signup; when
it was confirmed, recompute the confirmed sum into `quantity_sold` and,
if capacity is now free, run the FIFO promotion loop over the waitlist in
`created_at` order, adding each promoted quantity to `quantity_sold`. -/
def fixed_price_cancel (capacity : Nat) (signups : List SignupRec) (sold : Nat)
    (user : Nat) : List SignupRec × Nat :=
  match findSignup signups user with
  | none => (signups, sold)
  | some s =>
    let rest := signups.filter (fun x => !decide (x.user = user))
    if s.waitlisted then (rest, sold)
    else
      let sold1 := confirmedSum rest
      let remaining := capacity - sold1
      if 0 < remaining then
        let wl := sortByCreated (rest.filter (fun x => x.waitlisted))
        let pr := promoteLoop remaining wl
        (rest.filter (fun x => !x.waitlisted) ++ pr.1, sold1 + confirmedSum pr.1)
      else (rest, sold1)

/-- The decreasing branch of `fixed_price_adjust` (a confirmed signup
lowers its quantity): write the new quantity, recompute the confirmed sum
into `quantity_sold`, then run the same FIFO promotion loop. -/
def fixed_price_adjust_decrease (capacity : Nat) (signups : List SignupRec)
    (user newQty : Nat) : List SignupRec × Nat :=
  let updated := signups.map (fun s =>
    if s.user = user then ⟨s.user, newQty, s.waitlisted, s.created_at⟩ else s)
  let sold1 := confirmedSum updated
  let remaining := capacity - sold1
  if 0 < remaining then
    let wl := sortByCreated (updated.filter (fun x => x.waitlisted))
    let pr := promoteLoop remaining wl
    (updated.filter (fun x => !x.waitlisted) ++ pr.1, sold1 + confirmedSum pr.1)
  else (updated, sold1)

/-! ## Derived quantities used to state the invariant claims -/

/-- The amount of the K-th highest unit among the current proxies'
expanded units (`none` when fewer than K units exist). -/
def kthUnitAmount (item : PBItem) (proxies : List ProxyBid) : Option Int :=
  ((sortUnits (expandUnits proxies)).get? (max 1 item.quantity_total - 1)).map
    SeatUnit.amount

/-- Apply a sequence of one bidder's submissions `(amount, seats, time)`
through the `place_bid` upsert. -/
def applySubmissions (db : List ProxyBid) (user : Nat)
    (subs : List (Int × Nat × Nat)) : List ProxyBid :=
  subs.foldl (fun d x => dbUpsert d user x.1 x.2.1 x.2.2) db

instance : IsTotal SignupRec createdRel :=
  ⟨fun a b => Nat.le_total a.created_at b.created_at⟩

instance : IsTrans SignupRec createdRel :=
  ⟨fun _ _ _ hab hbc => Nat.le_trans hab hbc⟩

/-! ## Helper lemmas -/

theorem findUser_append_of_none (db l : List ProxyBid) (user : Nat)
    (h : findUser db user = none) : findUser (db ++ l) user = findUser l user := by
  induction db with
  | nil => rfl
  | cons p ps ih =>
    rw [List.cons_append]
    by_cases hp : p.bidder = user
    · simp [findUser, hp] at h
    · simp only [findUser, if_neg hp] at h ⊢
      exact ih h

theorem findUser_map_update (db : List ProxyBid) (user : Nat) (f : ProxyBid → ProxyBid)
    (hf : ∀ p, (f p).bidder = p.bidder) (pb : ProxyBid) (h : findUser db user = some pb) :
    findUser (db.map (fun p => if p.bidder = user then f p else p)) user = some (f pb) := by
  induction db with
  | nil => cases h
  | cons p ps ih =>
    unfold findUser at h
    by_cases hp : p.bidder = user
    · simp only [if_pos hp] at h
      have hpb : p = pb := by injection h
      subst hpb
      simp only [List.map_cons, if_pos hp]
      unfold findUser
      rw [if_pos ((hf p).trans hp)]
    · simp only [if_neg hp] at h
      simp only [List.map_cons, if_neg hp]
      unfold findUser
      rw [if_neg hp]
      exact ih h

theorem findUser_dbUpsert (db : List ProxyBid) (user : Nat) (a : Int) (s t : Nat) :
    findUser (dbUpsert db user a s t) user =
      some (match findUser db user with
            | none => ⟨user, a, s, t⟩
            | some pb => upsertRecord pb a s t) := by
  unfold dbUpsert
  cases hf : findUser db user with
  | none =>
    rw [findUser_append_of_none db _ user hf]
    unfold findUser
    simp
  | some pb =>
    show findUser
        (db.map (fun p => if p.bidder = user then upsertRecord p a s t else p)) user =
      some (upsertRecord pb a s t)
    exact findUser_map_update db user (fun p => upsertRecord p a s t) (fun p => rfl) pb hf

theorem confirmedSum_append (a b : List SignupRec) :
    confirmedSum (a ++ b) = confirmedSum a + confirmedSum b := by
  simp [confirmedSum, List.filter_append]

theorem confirmedSum_filter_confirmed (l : List SignupRec) :
    confirmedSum (l.filter (fun x => !x.waitlisted)) = confirmedSum l := by
  simp [confirmedSum, List.filter_filter]

theorem promoteSpec_zero (l : List SignupRec) : promoteSpec 0 l = (l, 0) := by
  cases l <;> simp [promoteSpec]

/-! ## Claims -/

/-- C2: `ProxyBid` is not among the classes defined by `auctions.models`,
so the `place_bid` view's transaction body raises on its local import,
the blanket handler reports the generic "Unable to place bid right now"
outcome, and the rollback leaves the proxy-bid and audit tables
unchanged. -/
theorem c2_proxybid_missing_import_fails :
    modelsModuleNames.contains "ProxyBid" = false ∧
    ∀ (item : PBItem) (db : List ProxyBid) (bids : List BidRow) (user : Nat)
      (amount : Int) (seats now : Nat),
      place_bid_request item db bids user amount seats now =
        (.genericFailure, db, bids) :=
  ⟨by decide, fun _ _ _ _ _ _ _ => rfl⟩

/-- C5 counterexample: in Scenario B (K=1, opening 1.00, X max 20.00 at
time 1, Y max 15.00 at time 2) the engine's price is not 20.00, and the
standard increment at 15.00 is not 5.00. -/
theorem c5_counterexample :
    (compute_current_state ⟨1, some 100, none⟩
        [⟨1, 2000, 1, 1⟩, ⟨2, 1500, 1, 2⟩]).price ≠ 2000 ∧
    standard_increment 1500 ≠ 500 := by
  decide

/-- C5 amended: in Scenario B the increment tier below 25.00 is 1.00, so
the engine reports capacity exhausted with leader X and public price
16.00 = min(20.00, 15.00 + 1.00). -/
theorem c5_amended_scenario_b :
    compute_current_state ⟨1, some 100, none⟩ [⟨1, 2000, 1, 1⟩, ⟨2, 1500, 1, 2⟩] =
      ⟨some 1, 1600, true, [(1, 1)]⟩ ∧
    standard_increment 1500 = 100 := by
  decide

/-- C6: units are sorted by descending amount with ties at equal amount
broken by ascending `updated_at`, and in Scenario A (K=1, opening 10.00)
bidder X's earlier max of 10.00 keeps the lead at price 10.00 after
bidder Y submits an equal max: capacity becomes exhausted and Y wins no
seat. -/
theorem c6_fifo_tie_break :
    (∀ l : List SeatUnit, List.Sorted unitRel (sortUnits l)) ∧
    compute_current_state ⟨1, some 1000, none⟩ [⟨1, 1000, 1, 1⟩] =
      ⟨some 1, 1000, false, [(1, 1)]⟩ ∧
    compute_current_state ⟨1, some 1000, none⟩ [⟨1, 1000, 1, 1⟩, ⟨2, 1000, 1, 2⟩] =
      ⟨some 1, 1000, true, [(1, 1)]⟩ ∧
    seatsWon (compute_current_state ⟨1, some 1000, none⟩
        [⟨1, 1000, 1, 1⟩, ⟨2, 1000, 1, 2⟩]).winners 2 = 0 :=
  ⟨fun l => List.sorted_insertionSort unitRel l, by decide, by decide, by decide⟩

/-- C7: the stored `max_amount` of a bidder's proxy row never decreases:
a single upsert replaces the standing maximum only when the submitted
amount is strictly greater, and over any sequence of the bidder's own
submissions the stored maximum is non-decreasing. -/
theorem c7_max_amount_monotone :
    (∀ (db : List ProxyBid) (user : Nat) (a : Int) (s t : Nat) (pb : ProxyBid),
      findUser db user = some pb →
      (findUser (dbUpsert db user a s t) user).map ProxyBid.max_amount =
        some (if pb.max_amount < a then a else pb.max_amount)) ∧
    (∀ (user : Nat) (subs : List (Int × Nat × Nat)) (db : List ProxyBid) (pb : ProxyBid),
      findUser db user = some pb →
      ∃ pb', findUser (applySubmissions db user subs) user = some pb' ∧
        pb.max_amount ≤ pb'.max_amount) := by
  constructor
  · intro db user a s t pb h
    rw [findUser_dbUpsert, h]
    simp [upsertRecord]
  · intro user subs
    induction subs with
    | nil => exact fun db pb h => ⟨pb, h, le_refl _⟩
    | cons x xs ih =>
      intro db pb h
      have h1 : findUser (dbUpsert db user x.1 x.2.1 x.2.2) user =
          some (upsertRecord pb x.1 x.2.1 x.2.2) := by
        rw [findUser_dbUpsert, h]
      obtain ⟨pb', hfind, hle⟩ :=
        ih (dbUpsert db user x.1 x.2.1 x.2.2) (upsertRecord pb x.1 x.2.1 x.2.2) h1
      refine ⟨pb', by simpa [applySubmissions] using hfind, le_trans ?_ hle⟩
      simp only [upsertRecord]
      by_cases hlt : pb.max_amount < x.1
      · simp only [if_pos hlt]
        exact le_of_lt hlt
      · simp only [if_neg hlt]
        exact le_refl _

/-- C7 witness: a standing maximum of 5.00 survives a lowering attempt to
3.00 and a later raise to 7.00 keeps it at least 5.00. -/
theorem c7_witness :
    (findUser (dbUpsert [⟨1, 500, 1, 0⟩] 1 300 1 1) 1).map ProxyBid.max_amount =
      some 500 ∧
    ∃ pb', findUser (applySubmissions [⟨1, 500, 1, 0⟩] 1 [(300, 1, 1), (700, 1, 2)]) 1 =
        some pb' ∧ (500 : Int) ≤ pb'.max_amount := by
  constructor
  · have h := c7_max_amount_monotone.1 [⟨1, 500, 1, 0⟩] 1 300 1 1 ⟨1, 500, 1, 0⟩ rfl
    simpa using h
  · exact c7_max_amount_monotone.2 1 [(300, 1, 1), (700, 1, 2)] [⟨1, 500, 1, 0⟩]
      ⟨1, 500, 1, 0⟩ rfl

/-- C3: when `place_bid` rejects a submission during validation, the
proxy-bid upsert performed before validation is committed anyway: the
resulting table is exactly the upserted one, and the bidder's stored row
reflects the rejected submission (seats replaced, maximum raised per the
upsert rule). -/
theorem c3_rejection_commits_upsert (item : PBItem) (db : List ProxyBid)
    (bids : List BidRow) (user : Nat) (amt : Int) (s0 now : Nat)
    (_hrej : BidOutcome.isRejection (place_bid item db bids user amt s0 now).1 = true) :
    (place_bid item db bids user amt s0 now).2.1 =
      dbUpsert db user amt (max 1 (min s0 (max 1 item.quantity_total))) now ∧
    findUser (place_bid item db bids user amt s0 now).2.1 user =
      some (match findUser db user with
            | none => ⟨user, amt, max 1 (min s0 (max 1 item.quantity_total)), now⟩
            | some pb => upsertRecord pb amt (max 1 (min s0 (max 1 item.quantity_total))) now) := by
  have hdb : (place_bid item db bids user amt s0 now).2.1 =
      dbUpsert db user amt (max 1 (min s0 (max 1 item.quantity_total))) now := by
    simp only [place_bid]
    split
    · split <;> rfl
    · split <;> rfl
  exact ⟨hdb, by rw [hdb, findUser_dbUpsert]⟩

/-- C3 witness: a first submission of 5.00 against an opening minimum of
10.00 is rejected, yet the proxy row for the bidder is persisted with the
rejected maximum. -/
theorem c3_witness :
    BidOutcome.isRejection (place_bid ⟨1, some 1000, none⟩ [] [] 7 500 1 3).1 = true ∧
    (place_bid ⟨1, some 1000, none⟩ [] [] 7 500 1 3).2.1 =
      dbUpsert [] 7 500 (max 1 (min 1 (max 1 1))) 3 ∧
    findUser (place_bid ⟨1, some 1000, none⟩ [] [] 7 500 1 3).2.1 7 =
      some ⟨7, 500, 1, 3⟩ := by
  have h := c3_rejection_commits_upsert ⟨1, some 1000, none⟩ [] [] 7 500 1 3 (by decide)
  exact ⟨by decide, h.1, by simpa using h.2⟩

/-- C8 counterexample: with capacity exhausted beforehand (K=1, X max
20.00, Y max 15.00, price 16.00), a first-time bidder submitting 5.00 —
below the required 17.00 and not among the new winners — is not
rejected: the claim's rejection does not fire because the upsert created
a fresh row. -/
theorem c8_counterexample :
    (compute_current_state ⟨1, some 100, none⟩
        [⟨1, 2000, 1, 1⟩, ⟨2, 1500, 1, 2⟩]).is_full = true ∧
    seatsWon (compute_current_state ⟨1, some 100, none⟩
        (dbUpsert [⟨1, 2000, 1, 1⟩, ⟨2, 1500, 1, 2⟩] 3 500 1 5)).winners 3 = 0 ∧
    (500 : Int) <
      (compute_current_state ⟨1, some 100, none⟩
          [⟨1, 2000, 1, 1⟩, ⟨2, 1500, 1, 2⟩]).price +
        get_increment ⟨1, some 100, none⟩
          (compute_current_state ⟨1, some 100, none⟩
              [⟨1, 2000, 1, 1⟩, ⟨2, 1500, 1, 2⟩]).price ∧
    BidOutcome.isRejection
      (place_bid ⟨1, some 100, none⟩ [⟨1, 2000, 1, 1⟩, ⟨2, 1500, 1, 2⟩]
          [] 3 500 1 5).1 = false := by
  decide

/-- C8 amended: when capacity was exhausted before, the submitter is not
among the new winners, the submitted maximum is below
`prev.price + increment(prev.price)`, and additionally the bidder already
had a stored proxy row, `place_bid` rejects with the guidance minimum;
(a first-time bidder in the same situation is not rejected, as the
counterexample shows). -/
theorem c8_amended_guidance_rejection (item : PBItem) (db : List ProxyBid)
    (bids : List BidRow) (user : Nat) (amt : Int) (s0 now : Nat) (pb : ProxyBid)
    (hfull : (compute_current_state item db).is_full = true)
    (hwin : seatsWon (compute_current_state item
        (dbUpsert db user amt (max 1 (min s0 (max 1 item.quantity_total))) now)).winners
        user = 0)
    (hamt : amt < (compute_current_state item db).price +
        get_increment item (compute_current_state item db).price)
    (hexist : findUser db user = some pb) :
    (place_bid item db bids user amt s0 now).1 =
      .rejectedNeedMin ((compute_current_state item db).price +
        get_increment item (compute_current_state item db).price) := by
  have hcreated : (findUser db user).isNone = false := by rw [hexist]; rfl
  have hmax : ((findUser
      (dbUpsert db user amt (max 1 (min s0 (max 1 item.quantity_total))) now)
        user).map ProxyBid.max_amount).getD amt =
      (if pb.max_amount < amt then amt else pb.max_amount) := by
    rw [findUser_dbUpsert, hexist]
    simp [upsertRecord]
  have hle : amt ≤ (if pb.max_amount < amt then amt else pb.max_amount) := by
    by_cases hlt : pb.max_amount < amt
    · simp [hlt]
    · simp only [if_neg hlt]
      exact le_of_not_lt hlt
  have hle2 : amt ≤ ((findUser
      (dbUpsert db user amt (max 1 (min s0 (max 1 item.quantity_total))) now)
        user).map ProxyBid.max_amount).getD amt := by
    rw [hmax]; exact hle
  simp only [place_bid]
  rw [if_neg (by simp [hfull]), if_pos ⟨hwin, hamt, hcreated, hle2⟩]

/-- C8 witness: the standing bidder Y (max 15.00) resubmitting 5.00 while
capacity is exhausted and Y is not winning is rejected with the guidance
minimum 17.00. -/
theorem c8_witness :
    (place_bid ⟨1, some 100, none⟩ [⟨1, 2000, 1, 1⟩, ⟨2, 1500, 1, 2⟩]
        [] 2 500 1 5).1 = .rejectedNeedMin 1700 := by
  have h := c8_amended_guidance_rejection ⟨1, some 100, none⟩
    [⟨1, 2000, 1, 1⟩, ⟨2, 1500, 1, 2⟩] [] 2 500 1 5 ⟨2, 1500, 1, 2⟩
    (by decide) (by decide) (by decide) (by decide)
  exact h.trans (by decide)

/-- C9: a fresh signup with quantity `q ≥ 1` on a fixed-price item is
confirmed in full when it fits the remaining capacity, making
`quantity_sold` the confirmed sum plus `q`; otherwise it is waitlisted
whole with the confirmed total and `quantity_sold` unchanged; in either
case a previously respected capacity bound is preserved. -/
theorem c9_signup_admission (capacity : Nat) (signups : List SignupRec) (sold : Nat)
    (user qty now : Nat) (hnew : findSignup signups user = none) (hq : 1 ≤ qty) :
    (confirmedSum signups + qty ≤ capacity →
      fixed_price_signup capacity signups sold user qty now =
        (.confirmed, signups ++ [⟨user, qty, false, now⟩], confirmedSum signups + qty) ∧
      confirmedSum (signups ++ [⟨user, qty, false, now⟩]) = confirmedSum signups + qty) ∧
    (capacity < confirmedSum signups + qty →
      fixed_price_signup capacity signups sold user qty now =
        (.waitlisted, signups ++ [⟨user, qty, true, now⟩], sold) ∧
      confirmedSum (signups ++ [⟨user, qty, true, now⟩]) = confirmedSum signups) ∧
    (confirmedSum signups ≤ capacity →
      confirmedSum (fixed_price_signup capacity signups sold user qty now).2.1 ≤ capacity) := by
  have hmax : max 1 qty = qty := Nat.max_eq_right hq
  refine ⟨fun h => ?_, fun h => ?_, fun h => ?_⟩
  · have hc : qty ≤ capacity - confirmedSum signups := by omega
    constructor
    · simp only [fixed_price_signup, hnew, hmax, if_pos hc]
    · rw [confirmedSum_append]
      simp [confirmedSum]
  · have hc : ¬qty ≤ capacity - confirmedSum signups := by omega
    constructor
    · simp only [fixed_price_signup, hnew, hmax, if_neg hc]
    · rw [confirmedSum_append]
      simp [confirmedSum]
  · by_cases hc : qty ≤ capacity - confirmedSum signups
    · have hsing : confirmedSum [(⟨user, qty, false, now⟩ : SignupRec)] = qty := by
        simp [confirmedSum]
      simp only [fixed_price_signup, hnew, hmax, if_pos hc]
      rw [confirmedSum_append, hsing]
      omega
    · have hsing : confirmedSum [(⟨user, qty, true, now⟩ : SignupRec)] = 0 := by
        simp [confirmedSum]
      simp only [fixed_price_signup, hnew, hmax, if_neg hc]
      rw [confirmedSum_append, hsing]
      omega

/-- C9 witness: capacity 2 — a first signup of 2 is confirmed with
`quantity_sold = 2`; a later signup of 1 is waitlisted whole with the
confirmed total untouched. -/
theorem c9_witness :
    fixed_price_signup 2 [] 0 1 2 0 = (.confirmed, [⟨1, 2, false, 0⟩], 2) ∧
    fixed_price_signup 2 [⟨1, 2, false, 0⟩] 2 2 1 1 =
      (.waitlisted, [⟨1, 2, false, 0⟩, ⟨2, 1, true, 1⟩], 2) := by
  have h1 := (c9_signup_admission 2 [] 0 1 2 0 rfl (by decide)).1 (by decide)
  have h2 := (c9_signup_admission 2 [⟨1, 2, false, 0⟩] 2 2 1 1 (by decide)
    (by decide)).2.1 (by decide)
  exact ⟨h1.1.trans (by decide), h2.1.trans (by decide)⟩

/-- C10: the promotion loop run after a capacity-freeing event equals the
spec's FIFO scan (promote whole whatever fits, skip whatever does not,
stop at zero remaining capacity), never changes any signup's quantity,
scans the waitlist in ascending `created_at` order, and both
`fixed_price_cancel` of a confirmed signup and the decrease branch of
`fixed_price_adjust` leave `quantity_sold` equal to the post-promotion
confirmed sum. -/
theorem c10_promotion_correct :
    (∀ (r : Nat) (l : List SignupRec), (∀ w ∈ l, 1 ≤ w.quantity) →
      promoteLoop r l = promoteSpec r l) ∧
    (∀ (r : Nat) (l : List SignupRec),
      (promoteLoop r l).1.map (fun w => (w.user, w.quantity)) =
        l.map (fun w => (w.user, w.quantity))) ∧
    (∀ l : List SignupRec, List.Sorted createdRel (sortByCreated l)) ∧
    (∀ (capacity : Nat) (signups : List SignupRec) (sold : Nat) (user : Nat)
      (s : SignupRec), findSignup signups user = some s → s.waitlisted = false →
      (fixed_price_cancel capacity signups sold user).2 =
        confirmedSum (fixed_price_cancel capacity signups sold user).1) ∧
    (∀ (capacity : Nat) (signups : List SignupRec) (user newQty : Nat),
      (fixed_price_adjust_decrease capacity signups user newQty).2 =
        confirmedSum (fixed_price_adjust_decrease capacity signups user newQty).1) := by
  refine ⟨?_, ?_, ?_, ?_, ?_⟩
  · intro r l
    induction l generalizing r with
    | nil => intro _; rfl
    | cons w ws ih =>
      intro hall
      have hw : 1 ≤ w.quantity := hall w (List.mem_cons_self w ws)
      have hws : ∀ x ∈ ws, 1 ≤ x.quantity := fun x hx => hall x (List.mem_cons_of_mem w hx)
      by_cases hr : r = 0
      · subst hr
        have hnf : ¬w.quantity ≤ 0 := by omega
        simp [promoteLoop, promoteSpec, hnf]
      · by_cases hfit : w.quantity ≤ r
        · by_cases hz : r - w.quantity = 0
          · simp [promoteLoop, promoteSpec, hr, hfit, hz, promoteSpec_zero]
          · have hrec := ih (r - w.quantity) hws
            simp [promoteLoop, promoteSpec, hr, hfit, hz, hrec]
        · have hrec := ih r hws
          simp [promoteLoop, promoteSpec, hr, hfit, hrec]
  · intro r l
    induction l generalizing r with
    | nil => rfl
    | cons w ws ih =>
      by_cases hfit : w.quantity ≤ r
      · by_cases hz : r - w.quantity = 0
        · simp [promoteLoop, hfit, hz]
        · simp [promoteLoop, hfit, hz, ih]
      · by_cases hr : r = 0
        · subst hr
          simp [promoteLoop, hfit]
        · simp [promoteLoop, hfit, hr, ih]
  · intro l
    unfold sortByCreated
    exact List.sorted_insertionSort createdRel l
  · intro capacity signups sold user s hfind hconf
    simp only [fixed_price_cancel, hfind, hconf, Bool.false_eq_true, if_false]
    split
    · rw [confirmedSum_append, confirmedSum_filter_confirmed]
    · rfl
  · intro capacity signups user newQty
    simp only [fixed_price_adjust_decrease]
    split
    · rw [confirmedSum_append, confirmedSum_filter_confirmed]
    · rfl

/-- C10 witness: with 2 free seats, a waitlisted request of 5 is skipped
while the later request of 1 is promoted (as in the spec scan), and a
confirmed cancellation leaves `quantity_sold` equal to the confirmed
sum after promotion. -/
theorem c10_witness :
    promoteLoop 2 [⟨3, 5, true, 0⟩, ⟨4, 1, true, 1⟩] =
      promoteSpec 2 [⟨3, 5, true, 0⟩, ⟨4, 1, true, 1⟩] ∧
    (fixed_price_cancel 2 [⟨1, 2, false, 0⟩, ⟨2, 1, true, 1⟩] 2 1).2 =
      confirmedSum (fixed_price_cancel 2 [⟨1, 2, false, 0⟩, ⟨2, 1, true, 1⟩] 2 1).1 :=
  ⟨c10_promotion_correct.1 2 [⟨3, 5, true, 0⟩, ⟨4, 1, true, 1⟩] (by decide),
   c10_promotion_correct.2.2.2.1 2 [⟨1, 2, false, 0⟩, ⟨2, 1, true, 1⟩] 2 1
     ⟨1, 2, false, 0⟩ (by decide) (by decide)⟩

/-- C4 counterexample: with opening minimum 10.00 and a single proxy of
5.00 (K=1), the public price is the opening 10.00, strictly above the
K-th highest declared max 5.00 — the claimed upper bound fails. -/
theorem c4_counterexample :
    (compute_current_state ⟨1, some 1000, none⟩ [⟨1, 500, 1, 0⟩]).price = 1000 ∧
    kthUnitAmount ⟨1, some 1000, none⟩ [⟨1, 500, 1, 0⟩] = some 500 ∧
    ¬((compute_current_state ⟨1, some 1000, none⟩ [⟨1, 500, 1, 0⟩]).price ≤ 500) := by
  decide

/-- C4 amended: for every item and non-empty set of proxy bids, the
public price is at least the opening minimum, and at most the maximum of
the opening minimum and the K-th highest declared max among the expanded
units (when fewer than K units exist the price is exactly the opening
minimum). -/
theorem c4_amended_price_bounds (item : PBItem) (proxies : List ProxyBid)
    (_hne : proxies ≠ []) :
    item.opening_min_bid.getD 100 ≤ (compute_current_state item proxies).price ∧
    (∀ a : Int, kthUnitAmount item proxies = some a →
      (compute_current_state item proxies).price ≤ max (item.opening_min_bid.getD 100) a) ∧
    (kthUnitAmount item proxies = none →
      (compute_current_state item proxies).price = item.opening_min_bid.getD 100) := by
  simp only [compute_current_state, kthUnitAmount]
  generalize sortUnits (expandUnits proxies) = u
  cases u with
  | nil =>
    refine ⟨le_refl _, ?_, fun _ => rfl⟩
    intro a ha
    exact Option.noConfusion ha
  | cons top rest =>
    by_cases hlen : (top :: rest).length ≤ max 1 item.quantity_total
    · simp only [if_pos hlen]
      exact ⟨le_refl _, fun a _ => le_max_left _ _, fun _ => trivial⟩
    · simp only [if_neg hlen]
      have hK : max 1 item.quantity_total < (top :: rest).length := Nat.lt_of_not_le hlen
      have hidx : max 1 item.quantity_total - 1 < (top :: rest).length := by omega
      obtain ⟨w, hw⟩ : ∃ w, (top :: rest).get? (max 1 item.quantity_total - 1) = some w := by
        rw [List.get?_eq_get hidx]
        exact ⟨_, rfl⟩
      rw [hw]
      refine ⟨le_max_right _ _, ?_, ?_⟩
      · intro a ha
        have haw : w.amount = a := by
          first
          | exact ha
          | injection ha
        subst haw
        exact max_le (le_trans (min_le_left _ _) (le_max_right _ _)) (le_max_left _ _)
      · intro hnone
        first
        | exact hnone.elim
        | exact Option.noConfusion hnone

/-- C4 witness: opening 1.00 with one proxy of 5.00 — the price lies
between the opening minimum and `max(opening, kth declared max)`. -/
theorem c4_witness :
    (100 : Int) ≤ (compute_current_state ⟨1, some 100, none⟩ [⟨1, 500, 1, 0⟩]).price ∧
    (compute_current_state ⟨1, some 100, none⟩ [⟨1, 500, 1, 0⟩]).price ≤
      max 100 500 := by
  have h := c4_amended_price_bounds ⟨1, some 100, none⟩ [⟨1, 500, 1, 0⟩] (by decide)
  exact ⟨h.1, h.2.1 500 (by decide)⟩

theorem expandUnits_of_seats_pos (proxies : List ProxyBid)
    (hs : ∀ p ∈ proxies, 1 ≤ p.seats) :
    expandUnits proxies = proxies.flatMap (fun p =>
      List.replicate p.seats ⟨p.max_amount, p.updated_at, p.bidder⟩) := by
  unfold expandUnits
  induction proxies with
  | nil => rfl
  | cons p ps ih =>
    have h1 : max 1 p.seats = p.seats :=
      Nat.max_eq_right (hs p (List.mem_cons_self p ps))
    simp only [List.flatMap_cons]
    rw [h1, ih (fun q hq => hs q (List.mem_cons_of_mem p hq))]

/-- C1: for every item and every set of proxy bids (each requesting at
least one seat), `compute_current_state` returns exactly the tuple
prescribed by the spec's algorithm (`specEngineOutcome`): the zero-bid
tuple, the all-win opening-price tuple when demand fits K, and the
uniform clearing price
`max(opening, min(kth, next + increment(next)))` with the top-K winners
when demand exceeds K. -/
theorem c1_engine_refines_spec (item : PBItem) (proxies : List ProxyBid)
    (hs : ∀ p ∈ proxies, 1 ≤ p.seats) :
    compute_current_state item proxies = specEngineOutcome item proxies := by
  simp only [compute_current_state, specEngineOutcome]
  rw [expandUnits_of_seats_pos proxies hs]
  generalize sortUnits (proxies.flatMap (fun p =>
    List.replicate p.seats ⟨p.max_amount, p.updated_at, p.bidder⟩)) = u
  cases u with
  | nil => rfl
  | cons top rest =>
    by_cases h : (top :: rest).length ≤ max 1 item.quantity_total
    · have h2 : ¬(max 1 item.quantity_total < (top :: rest).length) := Nat.not_lt.mpr h
      simp only [List.head?_cons, if_pos h, if_neg h2]
    · have h2 : max 1 item.quantity_total < (top :: rest).length := Nat.lt_of_not_le h
      simp only [List.head?_cons, if_neg h, if_pos h2]
      simp [max_comm]

/-- C1 witness: a multi-seat instance (K=3, two proxies of two seats
each) on which the source engine and the spec algorithm agree. -/
theorem c1_witness :
    compute_current_state ⟨3, some 100, none⟩ [⟨1, 2000, 2, 1⟩, ⟨2, 1500, 2, 2⟩] =
      specEngineOutcome ⟨3, some 100, none⟩ [⟨1, 2000, 2, 1⟩, ⟨2, 1500, 2, 2⟩] :=
  c1_engine_refines_spec ⟨3, some 100, none⟩ [⟨1, 2000, 2, 1⟩, ⟨2, 1500, 2, 2⟩]
    (by decide)

end Auuction
